import Mathlib

/-!
Verification of the `unless` logical operator
(`src/coordinator/functions/logical/unless.go`).

The operator performs a logical set-difference over two blocks of tagged
time series: it keeps the left-hand series whose signature (a hash of the
tag set under the vector-matching configuration) does not occur among the
right-hand series, streaming the surviving values unchanged into a fresh
block obtained from the controller.

Shallow embedding conventions:
* The Go `map[uint64]int` is modelled as an association list with
  insert-or-overwrite semantics (`mapInsert`/`mapLookup`).  Go map
  iteration order is unspecified; the code sorts the collected indices
  (`sort.Ints`), so the returned slice is independent of that order, and
  the association-list order is one admissible iteration order.
* Blocks, step iterators, builders and the controller are external
  collaborators reached through interfaces; they are modelled as data:
  a block yields either an error or a deterministic iterator (step count,
  series metadata, block metadata, and the list of `Current()` results),
  the controller either fails or hands out a fresh builder, and a builder
  records the appended `(row, value)` pairs in order.
* Go `int` is modelled as `Int` (the `-1` sentinel matters); slice
  indexing `xs[i]` is modelled with `List.getD` (the in-bounds theorems
  show the default is never taken on the paths the code exercises).
-/

namespace M3Unless

/-- The tag set of one series (`block.SeriesMeta`).  The concrete tag
representation is opaque to the operator, which only hashes it. -/
structure SeriesMeta (T : Type) where
  Tags : T
deriving DecidableEq, Inhabited

/-- Modelled from the spec: the Signature Function (`hashFunc`, defined in a
sibling file of the repository that is not under `src/`) maps the matching
configuration (inclusion flag plus label names) and a tag set to a
fixed-width hash, as a pure deterministic function (spec §4.1).  The
development is parametric in it; signatures are compared only for equality,
so the hash is modelled as a `Nat`. -/
def HashFunc (L T : Type) : Type := Bool → List L → T → Nat

/-- Vector-matching configuration (`VectorMatching`): inclusion flag `On`
plus the label names determining series identity. -/
structure VectorMatching (L : Type) where
  On : Bool
  MatchingLabels : List L

/-- Operator descriptor (`BaseOp`): operator tag, upstream node references
and the matching configuration.  The `ProcessorFn` field is construction
wiring only and carries no data, so it is not modelled. -/
structure BaseOp (L N : Type) where
  OperatorType : String
  LNode : N
  RNode : N
  Matching : VectorMatching L

/-- `UnlessType` tags the operator kind. -/
def UnlessType : String := "unless"

/-- `initIndexSliceLength` is the initial capacity of the survivor slice;
capacity has no observable semantics in the model. -/
def initIndexSliceLength : Nat := 10

/-- `NewUnlessOp` builds the operator descriptor. -/
def NewUnlessOp {L N : Type} (lNode rNode : N) (matching : VectorMatching L) :
    BaseOp L N :=
  ⟨UnlessType, lNode, rNode, matching⟩

/-- Errors of the operator: the three declared conditions plus pass-through
of an external collaborator error (type `E`). -/
inductive ProcErr (E : Type) where
  | mismatchedBounds
  | mismatchedStepCounts
  | conflictingTags
  | ext (e : E)
deriving DecidableEq

/-- `errMismatchedBounds` (declared, never raised in this file). -/
def errMismatchedBounds {E : Type} : ProcErr E := .mismatchedBounds

/-- `errMismatchedStepCounts` is returned when the two iterators disagree
on the step count. -/
def errMismatchedStepCounts {E : Type} : ProcErr E := .mismatchedStepCounts

/-- `errConflictingTags` (declared, never raised in this file). -/
def errConflictingTags {E : Type} : ProcErr E := .conflictingTags

/-- A step iterator (`block.StepIter`) as observed by the operator:
`StepCount()`, `SeriesMeta()`, `Meta()`, and the successive results of
`Current()` during the `Next()` loop. -/
structure StepIterM (T V M E : Type) where
  stepCount : Nat
  seriesMeta : List (SeriesMeta T)
  meta : M
  steps : List (Except E (List V))

/-- A block (`block.Block`): `StepIter()` yields an iterator or an error. -/
structure Blk (T V M E : Type) where
  stepIterRes : Except E (StepIterM T V M E)

/-- A block builder (`block.Builder`): it records the series metadata and
block metadata it was seeded with, the allocated column count, and every
`AppendValue(row, v)` call in order.  `addColsErr` injects the possible
failure of `AddCols`. -/
structure BuilderM (T V M E : Type) where
  bmeta : M
  bseriesMeta : List (SeriesMeta T)
  cols : Nat
  appended : List (Nat × V)
  addColsErr : Option E

/-- `Builder.AddCols` allocates `n` further columns or fails. -/
def BuilderM.AddCols {T V M E : Type} (b : BuilderM T V M E) (n : Nat) :
    Except E (BuilderM T V M E) :=
  match b.addColsErr with
  | some e => .error e
  | none => .ok { b with cols := b.cols + n }

/-- `Builder.AppendValue` records one appended value at the given row. -/
def BuilderM.AppendValue {T V M E : Type} (b : BuilderM T V M E) (row : Nat)
    (v : V) : BuilderM T V M E :=
  { b with appended := b.appended ++ [(row, v)] }

/-- The immutable block produced by `Builder.Build()`. -/
structure BuiltBlock (T V M : Type) where
  meta : M
  seriesMeta : List (SeriesMeta T)
  cols : Nat
  values : List (Nat × V)
deriving DecidableEq

/-- `Builder.Build` finalizes the builder into an immutable block. -/
def BuilderM.Build {T V M E : Type} (b : BuilderM T V M E) : BuiltBlock T V M :=
  ⟨b.bmeta, b.bseriesMeta, b.cols, b.appended⟩

/-- The execution controller (`transform.Controller`) as observed by the
operator: `BlockBuilder` either fails or hands out a fresh builder (whose
later `AddCols` outcome is injected through `addColsErr`). -/
structure ControllerM (E : Type) where
  builderErr : Option E
  addColsErr : Option E

/-- `Controller.BlockBuilder(meta, seriesMeta)` yields a fresh builder
seeded with the given metadata, or an error. -/
def ControllerM.BlockBuilder {T V M E : Type} (c : ControllerM E) (meta : M)
    (seriesMeta : List (SeriesMeta T)) : Except E (BuilderM T V M E) :=
  match c.builderErr with
  | some e => .error e
  | none => .ok ⟨meta, seriesMeta, 0, [], c.addColsErr⟩

/-- `UnlessNode`: the processor instance, holding its descriptor and the
controller. -/
structure UnlessNode (L N E : Type) where
  op : BaseOp L N
  controller : ControllerM E

/-- `NewUnlessNode` builds the processor from descriptor and controller. -/
def NewUnlessNode {L N E : Type} (op : BaseOp L N) (controller : ControllerM E) :
    UnlessNode L N E :=
  ⟨op, controller⟩

/-! ### The Go `map[uint64]int` as an association list -/

/-- The signature map `leftSigs : map[uint64]int`. -/
abbrev SigMap := List (Nat × Int)

/-- Go map assignment `m[k] = v`: overwrite in place if the key is present,
otherwise add the binding. -/
def mapInsert : SigMap → Nat → Int → SigMap
  | [], k, v => [(k, v)]
  | (k', v') :: rest, k, v =>
      if k' = k then (k, v) :: rest else (k', v') :: mapInsert rest k v

/-- Go map read `v, ok := m[k]`. -/
def mapLookup : SigMap → Nat → Option Int
  | [], _ => none
  | (k', v') :: rest, k => if k' = k then some v' else mapLookup rest k

/-! ### The exclusion selector -/

/-- First loop of `exclusion`: `for idx, meta := range lhs
{ leftSigs[idFunction(meta.Tags)] = idx }`, with `idx` starting at the
given value. -/
def buildLeftSigs {T : Type} (idFunction : T → Nat) :
    SigMap → Nat → List (SeriesMeta T) → SigMap
  | m, _, [] => m
  | m, idx, meta :: rest =>
      buildLeftSigs idFunction (mapInsert m (idFunction meta.Tags) (Int.ofNat idx))
        (idx + 1) rest

/-- Second loop of `exclusion`: for every right series whose signature is
present in the map, overwrite the recorded index with the sentinel `-1`. -/
def markRight {T : Type} (idFunction : T → Nat) :
    SigMap → List (SeriesMeta T) → SigMap
  | m, [] => m
  | m, rs :: rest =>
      markRight idFunction
        (if (mapLookup m (idFunction rs.Tags)).isSome then
          mapInsert m (idFunction rs.Tags) (-1)
        else m) rest

/-- `exclusion` returns the sorted indices of left-hand series that remain
after removing every signature that also occurs on the right-hand side.
`hf` is the signature function (see `HashFunc`). -/
def UnlessNode.exclusion {L N E T : Type} (hf : HashFunc L T) (c : UnlessNode L N E)
    (lhs rhs : List (SeriesMeta T)) : List Int :=
  let idFunction := hf c.op.Matching.On c.op.Matching.MatchingLabels
  let leftSigs := buildLeftSigs idFunction [] 0 lhs
  let leftSigs := markRight idFunction leftSigs rhs
  let uniqueLeft := (leftSigs.map Prod.snd).filter (fun v => v > -1)
  List.insertionSort (· ≤ ·) uniqueLeft

/-! ### Streaming and `Process` -/

/-- `addValuesAtIndeces`: advance the iterator step by step (`index`
counting rows from its initial value), and for each step append
`values[idx]` for every `idx` in `idxArray`; the first step error aborts. -/
def addValuesAtIndeces {T V M E : Type} [Inhabited V] (idxArray : List Int) :
    List (Except E (List V)) → BuilderM T V M E → Nat →
      Except E (BuilderM T V M E)
  | [], builder, _ => .ok builder
  | step :: rest, builder, index =>
      match step with
      | .error e => .error e
      | .ok values =>
          addValuesAtIndeces idxArray rest
            (idxArray.foldl
              (fun b idx => b.AppendValue index (values.getD idx.toNat default))
              builder)
            (index + 1)

/-- `Process` performs the Unless operation on two blocks. -/
def UnlessNode.Process {L N E T V M : Type} [Inhabited T] [Inhabited V]
    (hf : HashFunc L T) (c : UnlessNode L N E) (lhs rhs : Blk T V M E) :
    Except (ProcErr E) (BuiltBlock T V M) :=
  match lhs.stepIterRes with
  | .error e => .error (.ext e)
  | .ok lIter =>
    match rhs.stepIterRes with
    | .error e => .error (.ext e)
    | .ok rIter =>
      if lIter.stepCount ≠ rIter.stepCount then
        .error errMismatchedStepCounts
      else
        let lSeriesMeta := lIter.seriesMeta
        let rSeriesMeta := rIter.seriesMeta
        let lIds := c.exclusion hf lSeriesMeta rSeriesMeta
        let takenMeta := lIds.foldl
          (fun acc idx => acc ++ [lSeriesMeta.getD idx.toNat default]) []
        match c.controller.BlockBuilder lIter.meta takenMeta with
        | .error e => .error (.ext e)
        | .ok builder =>
          match builder.AddCols lIter.stepCount with
          | .error e => .error (.ext e)
          | .ok builder =>
            match addValuesAtIndeces lIds lIter.steps builder 0 with
            | .error e => .error (.ext e)
            | .ok builder => .ok builder.Build

/-! ### Specification-side descriptions used by the refinement statements -/

/-- The signature of the left-hand series at index `i`. -/
def sigAt {T : Type} [Inhabited T] (f : T → Nat) (lhs : List (SeriesMeta T))
    (i : Nat) : Nat :=
  f ((lhs.getD i default).Tags)

/-- Specification-side description of the survivor indices: the left
indices `i` such that no later left series shares `i`'s signature and no
right series shares it either (spec §4.2, with the duplicate-signature
collapse of step 1 made explicit). -/
def survivorsSpec {T : Type} [Inhabited T] (f : T → Nat)
    (lhs rhs : List (SeriesMeta T)) : List Nat :=
  (List.range lhs.length).filter (fun i =>
    ((List.range lhs.length).all fun j =>
      !(decide (i < j)) || (sigAt f lhs j != sigAt f lhs i)) &&
    (rhs.all fun r => f r.Tags != sigAt f lhs i))

/-! ### Association-list map lemmas -/

/-- The keys of a signature map. -/
def keys (m : SigMap) : List Nat :=
  m.map Prod.fst

@[simp] theorem keys_nil : keys [] = [] := rfl

@[simp] theorem keys_cons (p : Nat × Int) (m : SigMap) :
    keys (p :: m) = p.1 :: keys m := rfl

theorem mapLookup_mapInsert_self (m : SigMap) (k : Nat) (v : Int) :
    mapLookup (mapInsert m k v) k = some v := by
  induction m with
  | nil => simp [mapInsert, mapLookup]
  | cons p rest ih =>
      obtain ⟨a, b⟩ := p
      by_cases h : a = k
      · simp [mapInsert, h, mapLookup]
      · simp [mapInsert, h, mapLookup, ih]

theorem mapLookup_mapInsert_ne (m : SigMap) (k k' : Nat) (v : Int)
    (h : k' ≠ k) : mapLookup (mapInsert m k v) k' = mapLookup m k' := by
  have h' : k ≠ k' := Ne.symm h
  induction m with
  | nil => simp [mapInsert, mapLookup, h']
  | cons p rest ih =>
      obtain ⟨a, b⟩ := p
      by_cases ha : a = k
      · subst ha
        simp [mapInsert, mapLookup, h']
      · simp [mapInsert, ha, mapLookup, ih]

theorem mem_keys_mapInsert (m : SigMap) (k x : Nat) (v : Int) :
    x ∈ keys (mapInsert m k v) ↔ x ∈ keys m ∨ x = k := by
  induction m with
  | nil => simp [mapInsert]
  | cons p rest ih =>
      obtain ⟨a, b⟩ := p
      by_cases ha : a = k
      · subst ha
        simp only [mapInsert, ite_true, eq_self_iff_true, keys_cons, List.mem_cons]
        tauto
      · simp only [mapInsert, if_neg ha, keys_cons, List.mem_cons, ih]
        tauto

theorem keys_nodup_mapInsert (m : SigMap) (k : Nat) (v : Int)
    (h : (keys m).Nodup) : (keys (mapInsert m k v)).Nodup := by
  induction m with
  | nil => simp [mapInsert]
  | cons p rest ih =>
      obtain ⟨a, b⟩ := p
      simp only [keys_cons, List.nodup_cons] at h
      by_cases ha : a = k
      · subst ha
        simp only [mapInsert, ite_true, eq_self_iff_true, keys_cons, List.nodup_cons]
        exact h
      · simp only [mapInsert, if_neg ha, keys_cons, List.nodup_cons]
        refine ⟨fun hmem => ?_, ih h.2⟩
        rcases (mem_keys_mapInsert rest k a v).mp hmem with h' | h'
        · exact h.1 h'
        · exact ha h'

theorem mapLookup_isSome_iff_mem_keys (m : SigMap) (k : Nat) :
    (mapLookup m k).isSome ↔ k ∈ keys m := by
  induction m with
  | nil => simp [mapLookup]
  | cons p rest ih =>
      obtain ⟨a, b⟩ := p
      by_cases ha : a = k
      · simp [mapLookup, ha]
      · simp [mapLookup, ha, ih, Ne.symm ha]

theorem keys_mapInsert_of_mem (m : SigMap) (k : Nat) (v : Int)
    (h : k ∈ keys m) : keys (mapInsert m k v) = keys m := by
  induction m with
  | nil => simp at h
  | cons p rest ih =>
      obtain ⟨a, b⟩ := p
      by_cases ha : a = k
      · subst ha
        simp [mapInsert]
      · have h' : k ∈ keys rest := by
          simp only [keys_cons, List.mem_cons] at h
          rcases h with h | h
          · exact absurd h.symm ha
          · exact h
        simp [mapInsert, ha, ih h']

theorem mem_of_mapLookup_eq_some (m : SigMap) (k : Nat) (v : Int)
    (h : mapLookup m k = some v) : (k, v) ∈ m := by
  induction m with
  | nil => simp [mapLookup] at h
  | cons p rest ih =>
      obtain ⟨a, b⟩ := p
      by_cases ha : a = k
      · subst ha
        rw [mapLookup, if_pos rfl, Option.some.injEq] at h
        subst h
        exact List.mem_cons_self _ _
      · rw [mapLookup, if_neg ha] at h
        exact List.mem_cons_of_mem _ (ih h)

theorem mapLookup_eq_some_of_mem (m : SigMap) (k : Nat) (v : Int)
    (hnd : (keys m).Nodup) (h : (k, v) ∈ m) : mapLookup m k = some v := by
  induction m with
  | nil => simp at h
  | cons p rest ih =>
      obtain ⟨a, b⟩ := p
      simp only [keys_cons, List.nodup_cons] at hnd
      rcases List.mem_cons.mp h with h1 | h1
      · have hka : k = a ∧ v = b := by simpa using h1
        obtain ⟨rfl, rfl⟩ := hka
        simp [mapLookup]
      · have hk : k ∈ keys rest := by
          simpa [keys] using List.mem_map_of_mem Prod.fst h1
        have ha : a ≠ k := fun hh => hnd.1 (hh ▸ hk)
        rw [mapLookup, if_neg ha]
        exact ih hnd.2 h1

theorem mem_iff_mapLookup (m : SigMap) (k : Nat) (v : Int)
    (hnd : (keys m).Nodup) : (k, v) ∈ m ↔ mapLookup m k = some v :=
  ⟨mapLookup_eq_some_of_mem m k v hnd, mem_of_mapLookup_eq_some m k v⟩

/-! ### Characterizing the two loops of `exclusion` -/

/-- The index of the last series in `l` whose signature is `k`. -/
def lastIdxWith {T : Type} (f : T → Nat) (k : Nat) : List (SeriesMeta T) → Option Nat
  | [] => none
  | meta :: rest =>
      match lastIdxWith f k rest with
      | some j => some (j + 1)
      | none => if f meta.Tags = k then some 0 else none

@[simp] theorem sigAt_cons_zero {T : Type} [Inhabited T] (f : T → Nat)
    (meta : SeriesMeta T) (rest : List (SeriesMeta T)) :
    sigAt f (meta :: rest) 0 = f meta.Tags := rfl

@[simp] theorem sigAt_cons_succ {T : Type} [Inhabited T] (f : T → Nat)
    (meta : SeriesMeta T) (rest : List (SeriesMeta T)) (j : Nat) :
    sigAt f (meta :: rest) (j + 1) = sigAt f rest j := rfl

theorem lastIdxWith_eq_none_iff {T : Type} (f : T → Nat) (k : Nat)
    (l : List (SeriesMeta T)) :
    lastIdxWith f k l = none ↔ ∀ m ∈ l, f m.Tags ≠ k := by
  induction l with
  | nil => simp [lastIdxWith]
  | cons meta rest ih =>
      cases h : lastIdxWith f k rest with
      | some j =>
          simp only [lastIdxWith, h]
          constructor
          · intro hc
            cases hc
          · intro hall
            have hn : lastIdxWith f k rest = none :=
              ih.mpr fun m hm => hall m (List.mem_cons_of_mem _ hm)
            rw [h] at hn
            cases hn
      | none =>
          by_cases hm : f meta.Tags = k
          · simp only [lastIdxWith, h, if_pos hm, List.forall_mem_cons]
            constructor
            · intro hc
              cases hc
            · intro hall
              exact absurd hm hall.1
          · simp only [lastIdxWith, h, if_neg hm, List.forall_mem_cons]
            exact ⟨fun _ => ⟨hm, ih.mp h⟩, fun _ => trivial⟩

theorem sigAt_ne_of_forall {T : Type} [Inhabited T] (f : T → Nat) (k : Nat)
    (l : List (SeriesMeta T)) (h : ∀ m ∈ l, f m.Tags ≠ k) (j : Nat)
    (hj : j < l.length) : sigAt f l j ≠ k := by
  have hmem : l.getD j default ∈ l := by
    rw [List.getD_eq_getElem l default hj]
    exact List.getElem_mem hj
  exact h _ hmem

theorem lastIdxWith_eq_some_iff {T : Type} [Inhabited T] (f : T → Nat) (k : Nat)
    (l : List (SeriesMeta T)) (i : Nat) :
    lastIdxWith f k l = some i ↔
      (i < l.length ∧ sigAt f l i = k ∧
        ∀ j, i < j → j < l.length → sigAt f l j ≠ k) := by
  induction l generalizing i with
  | nil => simp [lastIdxWith]
  | cons meta rest ih =>
      cases h : lastIdxWith f k rest with
      | some j =>
          obtain ⟨hjlen, hjsig, hjlast⟩ := (ih j).mp h
          simp only [lastIdxWith, h, Option.some.injEq, List.length_cons]
          constructor
          · rintro rfl
            refine ⟨by omega, by simpa using hjsig, ?_⟩
            intro j' h1 h2
            cases j' with
            | zero => omega
            | succ j'' =>
                simp only [sigAt_cons_succ]
                exact hjlast j'' (by omega) (by omega)
          · rintro ⟨h1, h2, h3⟩
            cases i with
            | zero =>
                exact absurd (by simpa using hjsig)
                  (h3 (j + 1) (by omega) (by omega))
            | succ i' =>
                have hsome : lastIdxWith f k rest = some i' := by
                  refine (ih i').mpr ⟨by omega, by simpa using h2, ?_⟩
                  intro j'' hj1 hj2
                  have h4 := h3 (j'' + 1) (by omega) (by omega)
                  simpa using h4
                rw [h] at hsome
                injection hsome with hji
                omega
      | none =>
          have hnone : ∀ m ∈ rest, f m.Tags ≠ k :=
            (lastIdxWith_eq_none_iff f k rest).mp h
          by_cases hm : f meta.Tags = k
          · simp only [lastIdxWith, h, if_pos hm, Option.some.injEq,
              List.length_cons]
            constructor
            · rintro rfl
              refine ⟨by omega, by simpa using hm, ?_⟩
              intro j' h1 h2
              cases j' with
              | zero => omega
              | succ j'' =>
                  simp only [sigAt_cons_succ]
                  exact sigAt_ne_of_forall f k rest hnone j'' (by omega)
            · rintro ⟨h1, h2, h3⟩
              cases i with
              | zero => rfl
              | succ i' =>
                  exact absurd (by simpa using h2)
                    (sigAt_ne_of_forall f k rest hnone i' (by omega))
          · simp only [lastIdxWith, h, if_neg hm, List.length_cons]
            constructor
            · intro hc
              cases hc
            · rintro ⟨h1, h2, h3⟩
              cases i with
              | zero => exact absurd (by simpa using h2) hm
              | succ i' =>
                  exact absurd (by simpa using h2)
                    (sigAt_ne_of_forall f k rest hnone i' (by omega))

theorem mapLookup_buildLeftSigs {T : Type} (f : T → Nat)
    (l : List (SeriesMeta T)) (m : SigMap) (idx k : Nat) :
    mapLookup (buildLeftSigs f m idx l) k =
      match lastIdxWith f k l with
      | some j => some (Int.ofNat (idx + j))
      | none => mapLookup m k := by
  induction l generalizing m idx with
  | nil => simp [buildLeftSigs, lastIdxWith]
  | cons meta rest ih =>
      rw [buildLeftSigs, ih]
      cases h : lastIdxWith f k rest with
      | some j =>
          simp only [lastIdxWith, h]
          have harith : idx + 1 + j = idx + (j + 1) := by omega
          rw [harith]
      | none =>
          simp only [lastIdxWith, h]
          by_cases hm : f meta.Tags = k
          · rw [if_pos hm, ← hm, mapLookup_mapInsert_self]
            simp
          · rw [if_neg hm]
            exact mapLookup_mapInsert_ne m (f meta.Tags) k (Int.ofNat idx)
              fun hh => hm hh.symm

theorem mapLookup_markRight {T : Type} (f : T → Nat)
    (rhs : List (SeriesMeta T)) (m : SigMap) (k : Nat) :
    mapLookup (markRight f m rhs) k =
      match mapLookup m k with
      | none => none
      | some v => some (if rhs.any (fun r => f r.Tags == k) then -1 else v) := by
  induction rhs generalizing m with
  | nil => cases h : mapLookup m k <;> simp [markRight, h]
  | cons rs rest ih =>
      rw [markRight, ih]
      by_cases hsk : f rs.Tags = k
      · cases hm : mapLookup m k with
        | some v =>
            have hsome : (mapLookup m (f rs.Tags)).isSome = true := by
              rw [hsk, hm]
              rfl
            rw [if_pos hsome, hsk, mapLookup_mapInsert_self]
            simp [List.any_cons, hsk, hm]
        | none =>
            have hnone : ¬((mapLookup m (f rs.Tags)).isSome = true) := by
              rw [hsk, hm]
              simp
            rw [if_neg hnone, hm]
      · have hlk : mapLookup
            (if (mapLookup m (f rs.Tags)).isSome then
              mapInsert m (f rs.Tags) (-1)
            else m) k = mapLookup m k := by
          split
          · exact mapLookup_mapInsert_ne _ _ _ _ fun hh => hsk hh.symm
          · rfl
        rw [hlk]
        cases hm : mapLookup m k <;> simp [List.any_cons, hsk, hm]

theorem keys_nodup_buildLeftSigs {T : Type} (f : T → Nat)
    (l : List (SeriesMeta T)) (m : SigMap) (idx : Nat)
    (h : (keys m).Nodup) : (keys (buildLeftSigs f m idx l)).Nodup := by
  induction l generalizing m idx with
  | nil => exact h
  | cons meta rest ih => exact ih _ _ (keys_nodup_mapInsert _ _ _ h)

theorem keys_markRight {T : Type} (f : T → Nat) (rhs : List (SeriesMeta T))
    (m : SigMap) : keys (markRight f m rhs) = keys m := by
  induction rhs generalizing m with
  | nil => rfl
  | cons rs rest ih =>
      rw [markRight, ih]
      by_cases hs : (mapLookup m (f rs.Tags)).isSome = true
      · rw [if_pos hs]
        exact keys_mapInsert_of_mem _ _ _ ((mapLookup_isSome_iff_mem_keys _ _).mp hs)
      · rw [if_neg hs]

/-! ### The exclusion selector equals its ordered specification -/

/-- The signature map at the end of the two loops of `exclusion`. -/
def exclusionMap {T : Type} (f : T → Nat) (lhs rhs : List (SeriesMeta T)) : SigMap :=
  markRight f (buildLeftSigs f [] 0 lhs) rhs

/-- The body of `exclusion` for a fixed signature function. -/
def exclusionSorted {T : Type} (f : T → Nat) (lhs rhs : List (SeriesMeta T)) :
    List Int :=
  List.insertionSort (· ≤ ·)
    (((exclusionMap f lhs rhs).map Prod.snd).filter (fun v => v > -1))

theorem exclusion_eq_exclusionSorted {L N E T : Type} (hf : HashFunc L T)
    (c : UnlessNode L N E) (lhs rhs : List (SeriesMeta T)) :
    c.exclusion hf lhs rhs =
      exclusionSorted (hf c.op.Matching.On c.op.Matching.MatchingLabels) lhs rhs :=
  rfl

theorem mapLookup_exclusionMap {T : Type} (f : T → Nat)
    (lhs rhs : List (SeriesMeta T)) (k : Nat) :
    mapLookup (exclusionMap f lhs rhs) k =
      match lastIdxWith f k lhs with
      | none => none
      | some i =>
          some (if rhs.any (fun r => f r.Tags == k) then -1 else Int.ofNat i) := by
  rw [exclusionMap, mapLookup_markRight, mapLookup_buildLeftSigs]
  cases h : lastIdxWith f k lhs <;> simp [h, mapLookup]

theorem keys_nodup_exclusionMap {T : Type} (f : T → Nat)
    (lhs rhs : List (SeriesMeta T)) : (keys (exclusionMap f lhs rhs)).Nodup := by
  rw [exclusionMap, keys_markRight]
  exact keys_nodup_buildLeftSigs f lhs [] 0 (by simp)

theorem mem_exclusionMap_iff {T : Type} [Inhabited T] (f : T → Nat)
    (lhs rhs : List (SeriesMeta T)) (k : Nat) (v : Int) :
    (k, v) ∈ exclusionMap f lhs rhs ↔
      ∃ i, i < lhs.length ∧ sigAt f lhs i = k ∧
        (∀ j, i < j → j < lhs.length → sigAt f lhs j ≠ k) ∧
        v = if rhs.any (fun r => f r.Tags == k) then -1 else Int.ofNat i := by
  rw [mem_iff_mapLookup _ _ _ (keys_nodup_exclusionMap f lhs rhs),
    mapLookup_exclusionMap]
  cases h : lastIdxWith f k lhs with
  | none =>
      constructor
      · intro hc
        cases hc
      · rintro ⟨i, hi, hsig, hlast, hv⟩
        have hs : lastIdxWith f k lhs = some i :=
          (lastIdxWith_eq_some_iff f k lhs i).mpr ⟨hi, hsig, hlast⟩
        rw [h] at hs
        cases hs
  | some i0 =>
      have hch := (lastIdxWith_eq_some_iff f k lhs i0).mp h
      simp only [Option.some.injEq]
      constructor
      · intro hv
        exact ⟨i0, hch.1, hch.2.1, hch.2.2, hv.symm⟩
      · rintro ⟨i, hi, hsig, hlast, hv⟩
        have hs : lastIdxWith f k lhs = some i :=
          (lastIdxWith_eq_some_iff f k lhs i).mpr ⟨hi, hsig, hlast⟩
        rw [h] at hs
        injection hs with hs
        subst hs
        exact hv.symm

theorem mem_survivorsSpec_iff {T : Type} [Inhabited T] (f : T → Nat)
    (lhs rhs : List (SeriesMeta T)) (i : Nat) :
    i ∈ survivorsSpec f lhs rhs ↔
      i < lhs.length ∧
      (∀ j, i < j → j < lhs.length → sigAt f lhs j ≠ sigAt f lhs i) ∧
      (∀ r ∈ rhs, f r.Tags ≠ sigAt f lhs i) := by
  simp only [survivorsSpec, List.mem_filter, List.mem_range, Bool.and_eq_true,
    List.all_eq_true, Bool.or_eq_true, Bool.not_eq_true',
    decide_eq_false_iff_not, bne_iff_ne, ne_eq]
  constructor
  · rintro ⟨hi, hall, hrhs⟩
    refine ⟨hi, ?_, ?_⟩
    · intro j h1 h2
      rcases hall j h2 with hc | hc
      · exact absurd h1 hc
      · exact hc
    · exact hrhs
  · rintro ⟨hi, hlast, hrhs⟩
    refine ⟨hi, ?_, ?_⟩
    · intro j hj
      by_cases hij : i < j
      · exact Or.inr (hlast j hij hj)
      · exact Or.inl hij
    · exact hrhs

theorem survivorsSpec_nodup {T : Type} [Inhabited T] (f : T → Nat)
    (lhs rhs : List (SeriesMeta T)) : (survivorsSpec f lhs rhs).Nodup := by
  unfold survivorsSpec
  exact (List.nodup_range _).filter _

theorem survivorsSpec_pairwise {T : Type} [Inhabited T] (f : T → Nat)
    (lhs rhs : List (SeriesMeta T)) :
    (survivorsSpec f lhs rhs).Pairwise (· < ·) := by
  unfold survivorsSpec
  exact List.Pairwise.sublist (List.filter_sublist _) (List.pairwise_lt_range _)

theorem filter_map_snd (m : List (Nat × Int)) (p : Int → Bool) :
    (m.map Prod.snd).filter p = (m.filter (fun q => p q.2)).map Prod.snd := by
  induction m with
  | nil => rfl
  | cons q rest ih =>
      by_cases h : p q.2
      · simp [List.filter_cons, h, ih]
      · simp [List.filter_cons, h, ih]

theorem exclusionSorted_eq_survivorsSpec {T : Type} [Inhabited T] (f : T → Nat)
    (lhs rhs : List (SeriesMeta T)) :
    exclusionSorted f lhs rhs = (survivorsSpec f lhs rhs).map Int.ofNat := by
  have hnd1 : ((exclusionMap f lhs rhs).filter (fun q => q.2 > -1)).Nodup :=
    (List.Nodup.of_map Prod.fst
      (show ((exclusionMap f lhs rhs).map Prod.fst).Nodup from
        keys_nodup_exclusionMap f lhs rhs)).filter _
  have hnd2 : ((survivorsSpec f lhs rhs).map
      (fun i => (sigAt f lhs i, Int.ofNat i))).Nodup := by
    refine List.Nodup.map_on ?_ (survivorsSpec_nodup f lhs rhs)
    intro x hx y hy hxy
    have h2 := congrArg Prod.snd hxy
    simpa using h2
  have hperm : List.Perm ((exclusionMap f lhs rhs).filter (fun q => q.2 > -1))
      ((survivorsSpec f lhs rhs).map (fun i => (sigAt f lhs i, Int.ofNat i))) := by
    refine (List.perm_ext_iff_of_nodup hnd1 hnd2).mpr ?_
    rintro ⟨k, v⟩
    rw [List.mem_filter, mem_exclusionMap_iff, List.mem_map]
    constructor
    · rintro ⟨⟨i, hi, hsig, hlast, hv⟩, hpos⟩
      have hvpos : v > -1 := by simpa using hpos
      by_cases hany : rhs.any (fun r => f r.Tags == k)
      · rw [if_pos hany] at hv
        omega
      · rw [if_neg hany] at hv
        refine ⟨i, ?_, ?_⟩
        · rw [mem_survivorsSpec_iff]
          refine ⟨hi, ?_, ?_⟩
          · intro j h1 h2
            rw [hsig]
            exact hlast j h1 h2
          · intro r hr hc
            rw [hsig] at hc
            exact hany (List.any_eq_true.mpr ⟨r, hr, by simp [hc]⟩)
        · simp [hsig, hv]
    · rintro ⟨i, hmem, heq⟩
      have hk : sigAt f lhs i = k := congrArg Prod.fst heq
      have hv : Int.ofNat i = v := congrArg Prod.snd heq
      rw [mem_survivorsSpec_iff] at hmem
      obtain ⟨hi, hlast, hrhs⟩ := hmem
      have hany : rhs.any (fun r => f r.Tags == k) = false := by
        by_contra hc
        have htrue : rhs.any (fun r => f r.Tags == k) = true := by
          revert hc
          cases rhs.any (fun r => f r.Tags == k) <;> simp
        obtain ⟨r, hr, hbeq⟩ := List.any_eq_true.mp htrue
        have hfr : f r.Tags = k := by simpa using hbeq
        exact hrhs r hr (by rw [hk]; exact hfr)
      constructor
      · refine ⟨i, hi, hk, ?_, ?_⟩
        · intro j h1 h2
          rw [← hk]
          exact hlast j h1 h2
        · rw [if_neg (by simp [hany])]
          exact hv.symm
      · simp only [decide_eq_true_eq]
        rw [← hv]
        have hnn : (0 : Int) ≤ Int.ofNat i := Int.ofNat_nonneg i
        omega
  have hvals : ((exclusionMap f lhs rhs).map Prod.snd).filter (fun v => v > -1) =
      ((exclusionMap f lhs rhs).filter (fun q => q.2 > -1)).map Prod.snd :=
    filter_map_snd _ _
  have hperm2 : List.Perm
      (((exclusionMap f lhs rhs).map Prod.snd).filter (fun v => v > -1))
      ((survivorsSpec f lhs rhs).map Int.ofNat) := by
    rw [hvals]
    have h2 := hperm.map Prod.snd
    rw [List.map_map] at h2
    exact h2
  refine List.eq_of_perm_of_sorted
    ((List.perm_insertionSort _ _).trans hperm2)
    (List.sorted_insertionSort _ _) ?_
  rw [List.Sorted, List.pairwise_map]
  exact (survivorsSpec_pairwise f lhs rhs).imp
    fun hab => Int.ofNat_le.mpr (Nat.le_of_lt hab)

theorem exclusion_eq_survivors {L N E T : Type} [Inhabited T] (hf : HashFunc L T)
    (c : UnlessNode L N E) (lhs rhs : List (SeriesMeta T)) :
    c.exclusion hf lhs rhs =
      (survivorsSpec (hf c.op.Matching.On c.op.Matching.MatchingLabels) lhs rhs).map
        Int.ofNat := by
  rw [exclusion_eq_exclusionSorted, exclusionSorted_eq_survivorsSpec]

theorem mem_exclusion_iff {L N E T : Type} [Inhabited T] (hf : HashFunc L T)
    (c : UnlessNode L N E) (lhs rhs : List (SeriesMeta T)) (i : Nat) :
    Int.ofNat i ∈ c.exclusion hf lhs rhs ↔
      (i < lhs.length ∧
       (∀ j, i < j → j < lhs.length →
          sigAt (hf c.op.Matching.On c.op.Matching.MatchingLabels) lhs j ≠
            sigAt (hf c.op.Matching.On c.op.Matching.MatchingLabels) lhs i) ∧
       (∀ r ∈ rhs, hf c.op.Matching.On c.op.Matching.MatchingLabels r.Tags ≠
          sigAt (hf c.op.Matching.On c.op.Matching.MatchingLabels) lhs i)) := by
  rw [exclusion_eq_survivors, List.mem_map, ← mem_survivorsSpec_iff]
  constructor
  · rintro ⟨j, hj, hji⟩
    have hj2 : j = i := by
      have := Int.ofNat.inj hji
      exact this
    subst hj2
    exact hj
  · intro h
    exact ⟨i, h, rfl⟩

theorem exclusion_pairwise {L N E T : Type} [Inhabited T] (hf : HashFunc L T)
    (c : UnlessNode L N E) (lhs rhs : List (SeriesMeta T)) :
    (c.exclusion hf lhs rhs).Pairwise (· < ·) := by
  rw [exclusion_eq_survivors, List.pairwise_map]
  exact (survivorsSpec_pairwise _ lhs rhs).imp fun hab => Int.ofNat_lt.mpr hab

theorem exclusion_mem_bounds {L N E T : Type} [Inhabited T] (hf : HashFunc L T)
    (c : UnlessNode L N E) (lhs rhs : List (SeriesMeta T)) :
    ∀ v ∈ c.exclusion hf lhs rhs, 0 ≤ v ∧ v.toNat < lhs.length := by
  intro v hv
  rw [exclusion_eq_survivors, List.mem_map] at hv
  obtain ⟨i, hi, rfl⟩ := hv
  have hlen := ((mem_survivorsSpec_iff _ lhs rhs i).mp hi).1
  refine ⟨Int.ofNat_nonneg i, ?_⟩
  simpa using hlen

/-! ### The streaming layer of `Process` -/

/-- Specification-side description of the streamed output values (spec §8,
Value fidelity): for each step (row `r` counting up from the given start)
and each survivor index in order, the builder receives the pair of the row
and the value at that index in the step's values vector. -/
def valueFidelitySpec {V : Type} [Inhabited V] (idxArray : List Int) :
    Nat → List (List V) → List (Nat × V)
  | _, [] => []
  | r, values :: rest =>
      idxArray.map (fun idx => (r, values.getD idx.toNat default)) ++
        valueFidelitySpec idxArray (r + 1) rest

theorem foldl_append_singleton {A B : Type} (l : List A) (g : A → B)
    (acc : List B) :
    l.foldl (fun acc x => acc ++ [g x]) acc = acc ++ l.map g := by
  induction l generalizing acc with
  | nil => simp
  | cons x rest ih => simp [ih]

theorem foldl_AppendValue {T V M E : Type} [Inhabited V] (idxArray : List Int)
    (values : List V) (b : BuilderM T V M E) (r : Nat) :
    idxArray.foldl
        (fun bb idx => bb.AppendValue r (values.getD idx.toNat default)) b =
      { b with appended := b.appended ++
          idxArray.map (fun idx => (r, values.getD idx.toNat default)) } := by
  induction idxArray generalizing b with
  | nil => simp
  | cons idx rest ih =>
      rw [List.foldl_cons, ih]
      simp [BuilderM.AppendValue]

theorem addValuesAtIndeces_ok {T V M E : Type} [Inhabited V] (idxArray : List Int)
    (stepVals : List (List V)) (b : BuilderM T V M E) (r : Nat) :
    addValuesAtIndeces idxArray (stepVals.map Except.ok) b r =
      .ok { b with appended := b.appended ++ valueFidelitySpec idxArray r stepVals } := by
  induction stepVals generalizing b r with
  | nil => simp [addValuesAtIndeces, valueFidelitySpec]
  | cons values rest ih =>
      simp only [List.map_cons, addValuesAtIndeces, foldl_AppendValue, ih,
        valueFidelitySpec]
      simp

theorem addValuesAtIndeces_error {T V M E : Type} [Inhabited V]
    (idxArray : List Int) (stepVals : List (List V)) (e : E)
    (rest : List (Except E (List V))) (b : BuilderM T V M E) (r : Nat) :
    addValuesAtIndeces idxArray (stepVals.map Except.ok ++ .error e :: rest) b r =
      .error e := by
  induction stepVals generalizing b r with
  | nil => simp [addValuesAtIndeces]
  | cons values rest' ih =>
      simp only [List.map_cons, List.cons_append, addValuesAtIndeces]
      exact ih _ _

/-- Full characterization of a successful `Process` run: all collaborators
healthy, so the output block carries the left metadata, the survivor
projection of the left series metadata, one column per left step, and the
streamed survivor values of every step. -/
theorem Process_ok_characterization {L N E T V M : Type} [Inhabited T]
    [Inhabited V] (hf : HashFunc L T) (c : UnlessNode L N E)
    (lhs rhs : Blk T V M E) (li ri : StepIterM T V M E)
    (stepVals : List (List V))
    (hl : lhs.stepIterRes = .ok li) (hr : rhs.stepIterRes = .ok ri)
    (hcount : li.stepCount = ri.stepCount)
    (hbe : c.controller.builderErr = none)
    (hae : c.controller.addColsErr = none)
    (hsteps : li.steps = stepVals.map Except.ok) :
    c.Process hf lhs rhs =
      .ok ⟨li.meta,
        (c.exclusion hf li.seriesMeta ri.seriesMeta).map
          (fun idx => li.seriesMeta.getD idx.toNat default),
        li.stepCount,
        valueFidelitySpec (c.exclusion hf li.seriesMeta ri.seriesMeta) 0 stepVals⟩ := by
  unfold UnlessNode.Process
  simp only [hl, hr]
  rw [if_neg (by simp [hcount])]
  simp only [ControllerM.BlockBuilder, hbe, BuilderM.AddCols, hae, hsteps,
    foldl_append_singleton, addValuesAtIndeces_ok, BuilderM.Build]
  simp

theorem valueFidelitySpec_nil_idx {V : Type} [Inhabited V] (r : Nat)
    (stepVals : List (List V)) : valueFidelitySpec [] r stepVals = [] := by
  induction stepVals generalizing r with
  | nil => rfl
  | cons vs rest ih => simp [valueFidelitySpec, ih]

/-- Specification-side description of a verbatim copy of the left block's
step values (spec §8, No-op case): every value of every step, in step order,
paired with its row. -/
def verbatimRows {V : Type} : Nat → List (List V) → List (Nat × V)
  | _, [] => []
  | r, vs :: rest => vs.map (fun v => (r, v)) ++ verbatimRows (r + 1) rest

theorem survivorsSpec_all {T : Type} [Inhabited T] (f : T → Nat)
    (lhs : List (SeriesMeta T))
    (hdist : ∀ i j, i < j → j < lhs.length → sigAt f lhs j ≠ sigAt f lhs i) :
    survivorsSpec f lhs [] = List.range lhs.length := by
  unfold survivorsSpec
  apply List.filter_eq_self.mpr
  intro i hi
  have hi2 := List.mem_range.mp hi
  simp only [Bool.and_eq_true, List.all_eq_true, List.mem_range,
    Bool.or_eq_true, Bool.not_eq_true', decide_eq_false_iff_not, bne_iff_ne,
    ne_eq, List.not_mem_nil, false_implies, implies_true, and_true]
  intro j hj
  by_cases hij : i < j
  · exact Or.inr (hdist i j hij hj)
  · exact Or.inl hij

theorem map_getD_pairs {V : Type} [Inhabited V] (vs : List V) (n r : Nat)
    (h : vs.length = n) :
    (List.range n).map (fun i => (r, vs.getD i default)) =
      vs.map (fun v => (r, v)) := by
  apply List.ext_getElem
  · simp [h]
  · intro i h1 h2
    have hi : i < vs.length := by simpa using h2
    simp only [List.getElem_map, List.getElem_range]
    rw [List.getD_eq_getElem vs default hi]

theorem map_getD_range {V : Type} [Inhabited V] (vs : List V) :
    (List.range vs.length).map (fun i => vs.getD i default) = vs := by
  apply List.ext_getElem
  · simp
  · intro i h1 h2
    simp only [List.getElem_map, List.getElem_range]
    rw [List.getD_eq_getElem vs default h2]

theorem valueFidelitySpec_all {V : Type} [Inhabited V] (n : Nat)
    (stepVals : List (List V)) (r : Nat)
    (hlen : ∀ vs ∈ stepVals, vs.length = n) :
    valueFidelitySpec ((List.range n).map Int.ofNat) r stepVals =
      verbatimRows r stepVals := by
  induction stepVals generalizing r with
  | nil => rfl
  | cons vs rest ih =>
      simp only [valueFidelitySpec, verbatimRows]
      congr 1
      · rw [List.map_map]
        have hv : vs.length = n := hlen vs (List.mem_cons_self _ _)
        rw [← map_getD_pairs vs n r hv]
        apply List.map_congr_left
        intro i hi
        simp
      · exact ih _ fun vs h => hlen vs (List.mem_cons_of_mem _ h)

theorem addValuesAtIndeces_ok_fields {T V M E : Type} [Inhabited V]
    (idxArray : List Int) (steps : List (Except E (List V)))
    (b b2 : BuilderM T V M E) (r : Nat)
    (h : addValuesAtIndeces idxArray steps b r = .ok b2) :
    b2.bmeta = b.bmeta ∧ b2.bseriesMeta = b.bseriesMeta ∧ b2.cols = b.cols := by
  induction steps generalizing b r with
  | nil =>
      rw [addValuesAtIndeces] at h
      injection h with h
      rw [← h]
      exact ⟨rfl, rfl, rfl⟩
  | cons s rest ih =>
      cases s with
      | error e =>
          rw [addValuesAtIndeces] at h
          cases h
      | ok values =>
          rw [addValuesAtIndeces, foldl_AppendValue] at h
          have h2 := ih _ _ h
          simpa using h2

theorem Process_ok_inversion {L N E T V M : Type} [Inhabited T] [Inhabited V]
    (hf : HashFunc L T) (c : UnlessNode L N E) (lhs rhs : Blk T V M E)
    (li ri : StepIterM T V M E) (b : BuiltBlock T V M)
    (hl : lhs.stepIterRes = .ok li) (hr : rhs.stepIterRes = .ok ri)
    (hproc : c.Process hf lhs rhs = .ok b) :
    li.stepCount = ri.stepCount ∧ c.controller.builderErr = none ∧
      c.controller.addColsErr = none := by
  unfold UnlessNode.Process at hproc
  simp only [hl, hr] at hproc
  by_cases hcount : li.stepCount = ri.stepCount
  · rw [if_neg (by simp [hcount])] at hproc
    cases hbe : c.controller.builderErr with
    | some e =>
        simp only [ControllerM.BlockBuilder, hbe] at hproc
        cases hproc
    | none =>
        cases hae : c.controller.addColsErr with
        | some e =>
            simp only [ControllerM.BlockBuilder, hbe, BuilderM.AddCols, hae]
              at hproc
            cases hproc
        | none => exact ⟨hcount, rfl, rfl⟩
  · rw [if_pos (by simpa using hcount)] at hproc
    cases hproc

/-! ### Concrete instances used by the examples and witnesses -/

/-- Concrete signature function for the examples: the identity under the
matching rule is the first tag component; the second component
distinguishes otherwise different series. -/
def hf0 : HashFunc Nat (Nat × Nat) := fun _ _ t => t.1

/-- Concrete processor: matching on label `0`, healthy controller. -/
def node0 : UnlessNode Nat Nat Nat :=
  NewUnlessNode (NewUnlessOp 0 1 ⟨true, [0]⟩) ⟨none, none⟩

/-- `A` with tag value `0` (shared with `C`). -/
def Aex : SeriesMeta (Nat × Nat) := ⟨(0, 0)⟩

/-- `B` with tag value `1`. -/
def Bex : SeriesMeta (Nat × Nat) := ⟨(1, 1)⟩

/-- `C` with tag value `0` (shared with `A`). -/
def Cex : SeriesMeta (Nat × Nat) := ⟨(0, 2)⟩

/-- Left block: series `A`, `B`, `C` and two steps of values. -/
def lblk : Blk (Nat × Nat) Nat Nat Nat :=
  ⟨.ok ⟨2, [Aex, Bex, Cex], 99, [.ok [10, 11, 12], .ok [20, 21, 22]]⟩⟩

/-- Right block with zero series and two steps. -/
def rblk : Blk (Nat × Nat) Nat Nat Nat :=
  ⟨.ok ⟨2, [], 98, [.ok [], .ok []]⟩⟩

/-- Left block whose two series share one signature. -/
def lblkDup : Blk (Nat × Nat) Nat Nat Nat :=
  ⟨.ok ⟨2, [⟨(5, 1)⟩, ⟨(5, 2)⟩], 99, [.ok [20, 21], .ok [30, 31]]⟩⟩

/-- Left block whose two series have distinct signatures. -/
def lblkDistinct : Blk (Nat × Nat) Nat Nat Nat :=
  ⟨.ok ⟨2, [⟨(7, 0)⟩, ⟨(8, 1)⟩], 99, [.ok [1, 2], .ok [3, 4]]⟩⟩

/-- Iterators reporting five and six steps (spec §8, Step-count guard). -/
def lblk5 : Blk (Nat × Nat) Nat Nat Nat := ⟨.ok ⟨5, [], 0, []⟩⟩

/-- Right counterpart of `lblk5` reporting six steps. -/
def rblk6 : Blk (Nat × Nat) Nat Nat Nat := ⟨.ok ⟨6, [], 0, []⟩⟩

/-- A block whose `StepIter()` fails with external error `42`. -/
def blkErr : Blk (Nat × Nat) Nat Nat Nat := ⟨.error 42⟩

/-- A processor whose controller fails `BlockBuilder` with error `7`. -/
def nodeBuilderErr : UnlessNode Nat Nat Nat :=
  NewUnlessNode (NewUnlessOp 0 1 ⟨true, [0]⟩) ⟨some 7, none⟩

/-- A processor whose builder fails `AddCols` with error `8`. -/
def nodeAddColsErr : UnlessNode Nat Nat Nat :=
  NewUnlessNode (NewUnlessOp 0 1 ⟨true, [0]⟩) ⟨none, some 8⟩

/-- A left block whose second step fails with external error `9`. -/
def lblkStepErr : Blk (Nat × Nat) Nat Nat Nat :=
  ⟨.ok ⟨2, [Aex], 99, [.ok [1], .error 9]⟩⟩

/-- One-series left block fully excluded by `rblkFull`. -/
def lblkOne : Blk (Nat × Nat) Nat Nat Nat :=
  ⟨.ok ⟨2, [⟨(3, 0)⟩], 99, [.ok [7], .ok [8]]⟩⟩

/-- Right block sharing the signature of `lblkOne`'s only series. -/
def rblkFull : Blk (Nat × Nat) Nat Nat Nat :=
  ⟨.ok ⟨2, [⟨(3, 9)⟩], 98, [.ok [100], .ok [200]]⟩⟩

/-- Right block with one series and some step values. -/
def rblkVals1 : Blk (Nat × Nat) Nat Nat Nat :=
  ⟨.ok ⟨2, [⟨(1, 7)⟩], 98, [.ok [500], .ok [600]]⟩⟩

/-- Same series metadata and step count as `rblkVals1`, different values
(one step even fails). -/
def rblkVals2 : Blk (Nat × Nat) Nat Nat Nat :=
  ⟨.ok ⟨2, [⟨(1, 7)⟩], 98, [.ok [123], .error 4]⟩⟩

/-! ### The claims -/

/-- C1, counterexample: the claim is false as stated.  In `lblkDup` the
left series at index 0 (tags `(5, 1)`) does not survive into the output of
`Process` although no right-hand series shares its signature (the right
side has no series at all): the later left series `(5, 2)` with the same
signature collapses it. -/
theorem unless_c1_counterexample :
    node0.Process hf0 lblkDup rblk =
      .ok ⟨99, [⟨(5, 2)⟩], 2, [(0, 21), (1, 31)]⟩ ∧
    (Int.ofNat 0 ∉ node0.exclusion hf0 [⟨(5, 1)⟩, ⟨(5, 2)⟩] []) ∧
    (∀ r ∈ ([] : List (SeriesMeta (Nat × Nat))),
      hf0 node0.op.Matching.On node0.op.Matching.MatchingLabels r.Tags ≠
        hf0 node0.op.Matching.On node0.op.Matching.MatchingLabels
          ((5, 1) : Nat × Nat)) ∧
    (⟨(5, 1)⟩ : SeriesMeta (Nat × Nat)) ∉
      ([⟨(5, 2)⟩] : List (SeriesMeta (Nat × Nat))) := by
  refine ⟨rfl, by decide, by simp, by decide⟩

/-- C1 (amended): for input blocks with equal step counts and healthy
collaborators, `Process` succeeds and a left-hand series index survives
into the output if and only if no right-hand series shares its signature
AND no later left-hand series shares its signature under the matching
configuration; the output series list is the survivor projection. -/
theorem unless_exclusion_correctness {L N E T V M : Type} [Inhabited T]
    [Inhabited V] (hf : HashFunc L T) (c : UnlessNode L N E)
    (lhs rhs : Blk T V M E) (li ri : StepIterM T V M E)
    (stepVals : List (List V))
    (hl : lhs.stepIterRes = .ok li) (hr : rhs.stepIterRes = .ok ri)
    (hcount : li.stepCount = ri.stepCount)
    (hbe : c.controller.builderErr = none)
    (hae : c.controller.addColsErr = none)
    (hsteps : li.steps = stepVals.map Except.ok) :
    ∃ b, c.Process hf lhs rhs = .ok b ∧
      b.seriesMeta = (c.exclusion hf li.seriesMeta ri.seriesMeta).map
        (fun idx => li.seriesMeta.getD idx.toNat default) ∧
      ∀ i, Int.ofNat i ∈ c.exclusion hf li.seriesMeta ri.seriesMeta ↔
        (i < li.seriesMeta.length ∧
         (∀ j, i < j → j < li.seriesMeta.length →
            sigAt (hf c.op.Matching.On c.op.Matching.MatchingLabels)
                li.seriesMeta j ≠
              sigAt (hf c.op.Matching.On c.op.Matching.MatchingLabels)
                li.seriesMeta i) ∧
         (∀ r ∈ ri.seriesMeta,
            hf c.op.Matching.On c.op.Matching.MatchingLabels r.Tags ≠
              sigAt (hf c.op.Matching.On c.op.Matching.MatchingLabels)
                li.seriesMeta i)) := by
  refine ⟨_, Process_ok_characterization hf c lhs rhs li ri stepVals hl hr
    hcount hbe hae hsteps, rfl, ?_⟩
  intro i
  exact mem_exclusion_iff hf c li.seriesMeta ri.seriesMeta i

theorem unless_exclusion_correctness_witness :
    ∃ b : BuiltBlock (Nat × Nat) Nat Nat,
      node0.Process hf0 lblk rblk = .ok b ∧
      b.seriesMeta = (node0.exclusion hf0 [Aex, Bex, Cex] []).map
        (fun idx => [Aex, Bex, Cex].getD idx.toNat default) ∧
      ∀ i, Int.ofNat i ∈ node0.exclusion hf0 [Aex, Bex, Cex] [] ↔
        (i < [Aex, Bex, Cex].length ∧
         (∀ j, i < j → j < [Aex, Bex, Cex].length →
            sigAt (hf0 true [0]) [Aex, Bex, Cex] j ≠
              sigAt (hf0 true [0]) [Aex, Bex, Cex] i) ∧
         (∀ r ∈ ([] : List (SeriesMeta (Nat × Nat))),
            hf0 true [0] r.Tags ≠ sigAt (hf0 true [0]) [Aex, Bex, Cex] i)) :=
  unless_exclusion_correctness hf0 node0 lblk rblk _ _
    [[10, 11, 12], [20, 21, 22]] rfl rfl rfl rfl rfl rfl

/-- C2: with left series `A{tag=x}`, `B{tag=y}`, `C{tag=x}` and an empty
right side, the output of `Process` contains exactly `B` and `C`; `A` is
dropped because `C`'s identical signature overwrote its map entry. -/
theorem unless_duplicate_signature_collapse :
    node0.Process hf0 lblk rblk =
      .ok ⟨99, [Bex, Cex], 2, [(0, 11), (0, 12), (1, 21), (1, 22)]⟩ ∧
    Bex ∈ [Bex, Cex] ∧ Cex ∈ [Bex, Cex] ∧ Aex ∉ [Bex, Cex] := by
  refine ⟨rfl, by decide, by decide, by decide⟩

/-- C3: for a successful `Process` run, the output series-metadata list is
exactly the survivor projection of the left list in ascending order, and
the streamed values are exactly the left block's values at each step and
each survivor's left index, unmodified; every survivor index is in bounds
for the left series list. -/
theorem unless_value_fidelity {L N E T V M : Type} [Inhabited T] [Inhabited V]
    (hf : HashFunc L T) (c : UnlessNode L N E) (lhs rhs : Blk T V M E)
    (li ri : StepIterM T V M E) (stepVals : List (List V))
    (b : BuiltBlock T V M)
    (hl : lhs.stepIterRes = .ok li) (hr : rhs.stepIterRes = .ok ri)
    (hsteps : li.steps = stepVals.map Except.ok)
    (hproc : c.Process hf lhs rhs = .ok b) :
    b.seriesMeta = (c.exclusion hf li.seriesMeta ri.seriesMeta).map
      (fun idx => li.seriesMeta.getD idx.toNat default) ∧
    b.values = valueFidelitySpec (c.exclusion hf li.seriesMeta ri.seriesMeta)
      0 stepVals ∧
    ∀ v ∈ c.exclusion hf li.seriesMeta ri.seriesMeta,
      v.toNat < li.seriesMeta.length := by
  obtain ⟨hcount, hbe, hae⟩ :=
    Process_ok_inversion hf c lhs rhs li ri b hl hr hproc
  have hchar := Process_ok_characterization hf c lhs rhs li ri stepVals hl hr
    hcount hbe hae hsteps
  rw [hchar] at hproc
  injection hproc with hb
  refine ⟨?_, ?_, ?_⟩
  · rw [← hb]
  · rw [← hb]
  · intro v hv
    exact (exclusion_mem_bounds hf c li.seriesMeta ri.seriesMeta v hv).2

theorem unless_value_fidelity_witness :
    ([Bex, Cex] : List (SeriesMeta (Nat × Nat))) =
      (node0.exclusion hf0 [Aex, Bex, Cex] []).map
        (fun idx => [Aex, Bex, Cex].getD idx.toNat default) ∧
    ([(0, 11), (0, 12), (1, 21), (1, 22)] : List (Nat × Nat)) =
      valueFidelitySpec (node0.exclusion hf0 [Aex, Bex, Cex] []) 0
        [[10, 11, 12], [20, 21, 22]] ∧
    ∀ v ∈ node0.exclusion hf0 [Aex, Bex, Cex] [],
      v.toNat < [Aex, Bex, Cex].length :=
  unless_value_fidelity hf0 node0 lblk rblk _ _ [[10, 11, 12], [20, 21, 22]]
    _ rfl rfl rfl rfl

/-- C4: if both iterators open but report unequal step counts, `Process`
returns the mismatched-step-counts error and no block — for EVERY
controller, including one whose `BlockBuilder` always fails, so no builder
is requested before the check passes. -/
theorem unless_step_count_guard {L N E T V M : Type} [Inhabited T]
    [Inhabited V] (hf : HashFunc L T) (c : UnlessNode L N E)
    (lhs rhs : Blk T V M E) (li ri : StepIterM T V M E)
    (hl : lhs.stepIterRes = .ok li) (hr : rhs.stepIterRes = .ok ri)
    (hcount : li.stepCount ≠ ri.stepCount) :
    c.Process hf lhs rhs = .error errMismatchedStepCounts := by
  unfold UnlessNode.Process
  simp only [hl, hr]
  rw [if_pos hcount]

theorem unless_step_count_guard_witness :
    node0.Process hf0 lblk5 rblk6 = .error errMismatchedStepCounts ∧
    nodeBuilderErr.Process hf0 lblk5 rblk6 = .error errMismatchedStepCounts :=
  ⟨unless_step_count_guard hf0 node0 lblk5 rblk6 _ _ rfl rfl (by decide),
   unless_step_count_guard hf0 nodeBuilderErr lblk5 rblk6 _ _ rfl rfl
     (by decide)⟩

/-- C5: the survivor index list returned by `exclusion` is strictly
ascending (so no duplicates) and every entry is a valid index into the
left series-metadata list; hence survivors keep the left-hand relative
order independently of map iteration order. -/
theorem unless_order_preservation {L N E T : Type} [Inhabited T]
    (hf : HashFunc L T) (c : UnlessNode L N E)
    (lhs rhs : List (SeriesMeta T)) :
    (c.exclusion hf lhs rhs).Pairwise (· < ·) ∧
    ∀ v ∈ c.exclusion hf lhs rhs, 0 ≤ v ∧ v.toNat < lhs.length :=
  ⟨exclusion_pairwise hf c lhs rhs, exclusion_mem_bounds hf c lhs rhs⟩

theorem unless_order_preservation_witness :
    (node0.exclusion hf0 [Aex, Bex, Cex] []).Pairwise (· < ·) ∧
    ((0 : Int) ≤ 1 ∧ (1 : Int).toNat < [Aex, Bex, Cex].length) :=
  ⟨(unless_order_preservation hf0 node0 [Aex, Bex, Cex] []).1,
   (unless_order_preservation hf0 node0 [Aex, Bex, Cex] []).2 1 (by decide)⟩

/-- C6, counterexample: the claim is false as stated.  With zero right-hand
series, the output of `Process` on `lblk` has series `[B, C]`, not the left
list `[A, B, C]`: the duplicate-signature collapse drops `A` even though
the right side excluded nothing. -/
theorem unless_c6_counterexample :
    node0.Process hf0 lblk rblk =
      .ok ⟨99, [Bex, Cex], 2, [(0, 11), (0, 12), (1, 21), (1, 22)]⟩ ∧
    ([Bex, Cex] : List (SeriesMeta (Nat × Nat))) ≠ [Aex, Bex, Cex] :=
  ⟨rfl, by decide⟩

/-- C6 (amended): if the right side has zero series AND no two left-hand
series share a signature, the output of `Process` equals the left side
verbatim: same series metadata in the same order, the left step count as
column count, and every step's values copied through unchanged. -/
theorem unless_noop_case {L N E T V M : Type} [Inhabited T] [Inhabited V]
    (hf : HashFunc L T) (c : UnlessNode L N E) (lhs rhs : Blk T V M E)
    (li ri : StepIterM T V M E) (stepVals : List (List V))
    (hl : lhs.stepIterRes = .ok li) (hr : rhs.stepIterRes = .ok ri)
    (hcount : li.stepCount = ri.stepCount)
    (hbe : c.controller.builderErr = none)
    (hae : c.controller.addColsErr = none)
    (hsteps : li.steps = stepVals.map Except.ok)
    (hrmeta : ri.seriesMeta = [])
    (hdist : ∀ i j, i < j → j < li.seriesMeta.length →
      sigAt (hf c.op.Matching.On c.op.Matching.MatchingLabels)
          li.seriesMeta j ≠
        sigAt (hf c.op.Matching.On c.op.Matching.MatchingLabels)
          li.seriesMeta i)
    (hlen : ∀ vs ∈ stepVals, vs.length = li.seriesMeta.length) :
    c.Process hf lhs rhs =
      .ok ⟨li.meta, li.seriesMeta, li.stepCount, verbatimRows 0 stepVals⟩ := by
  have hexcl : c.exclusion hf li.seriesMeta ri.seriesMeta =
      (List.range li.seriesMeta.length).map Int.ofNat := by
    rw [hrmeta, exclusion_eq_survivors, survivorsSpec_all _ _ hdist]
  have hmeta2 : ((List.range li.seriesMeta.length).map Int.ofNat).map
      (fun idx => li.seriesMeta.getD idx.toNat default) = li.seriesMeta := by
    rw [List.map_map]
    have h2 : ((fun idx => li.seriesMeta.getD idx.toNat default) ∘ Int.ofNat) =
        fun i => li.seriesMeta.getD i default := by
      funext i
      simp
    rw [h2, map_getD_range]
  have hvals : valueFidelitySpec
      ((List.range li.seriesMeta.length).map Int.ofNat) 0 stepVals =
      verbatimRows 0 stepVals :=
    valueFidelitySpec_all _ _ _ hlen
  rw [Process_ok_characterization hf c lhs rhs li ri stepVals hl hr hcount
    hbe hae hsteps, hexcl, hmeta2, hvals]

theorem unless_noop_case_witness :
    node0.Process hf0 lblkDistinct rblk =
      .ok ⟨99, [⟨(7, 0)⟩, ⟨(8, 1)⟩], 2, verbatimRows 0 [[1, 2], [3, 4]]⟩ :=
  unless_noop_case hf0 node0 lblkDistinct rblk _ _ [[1, 2], [3, 4]]
    rfl rfl rfl rfl rfl rfl rfl
    (by
      intro i j hij hj2
      have hj : j < 2 := by simpa using hj2
      interval_cases j <;> interval_cases i <;> decide)
    (by decide)

/-- C7: if the survivor list is empty, `Process` still succeeds and returns
a block with zero series whose allocated column count equals the left
iterator's step count. -/
theorem unless_full_exclusion {L N E T V M : Type} [Inhabited T] [Inhabited V]
    (hf : HashFunc L T) (c : UnlessNode L N E) (lhs rhs : Blk T V M E)
    (li ri : StepIterM T V M E) (stepVals : List (List V))
    (hl : lhs.stepIterRes = .ok li) (hr : rhs.stepIterRes = .ok ri)
    (hcount : li.stepCount = ri.stepCount)
    (hbe : c.controller.builderErr = none)
    (hae : c.controller.addColsErr = none)
    (hsteps : li.steps = stepVals.map Except.ok)
    (hexcl : c.exclusion hf li.seriesMeta ri.seriesMeta = []) :
    c.Process hf lhs rhs = .ok ⟨li.meta, [], li.stepCount, []⟩ := by
  rw [Process_ok_characterization hf c lhs rhs li ri stepVals hl hr hcount
    hbe hae hsteps, hexcl, valueFidelitySpec_nil_idx]
  rfl

theorem unless_full_exclusion_witness :
    node0.Process hf0 lblkOne rblkFull = .ok ⟨99, [], 2, []⟩ :=
  unless_full_exclusion hf0 node0 lblkOne rblkFull _ _ [[7], [8]]
    rfl rfl rfl rfl rfl rfl (by decide)

/-- C8: any error from opening either iterator, from builder construction,
from column allocation, or from retrieving a step is returned by `Process`
unchanged (as the same external error value) together with no block. -/
theorem unless_error_propagation_all {L N E T V M : Type} [Inhabited T]
    [Inhabited V] (hf : HashFunc L T) :
    (∀ (c : UnlessNode L N E) (lhs rhs : Blk T V M E) (e : E),
      lhs.stepIterRes = .error e → c.Process hf lhs rhs = .error (.ext e)) ∧
    (∀ (c : UnlessNode L N E) (lhs rhs : Blk T V M E)
        (li : StepIterM T V M E) (e : E),
      lhs.stepIterRes = .ok li → rhs.stepIterRes = .error e →
      c.Process hf lhs rhs = .error (.ext e)) ∧
    (∀ (c : UnlessNode L N E) (lhs rhs : Blk T V M E)
        (li ri : StepIterM T V M E) (e : E),
      lhs.stepIterRes = .ok li → rhs.stepIterRes = .ok ri →
      li.stepCount = ri.stepCount → c.controller.builderErr = some e →
      c.Process hf lhs rhs = .error (.ext e)) ∧
    (∀ (c : UnlessNode L N E) (lhs rhs : Blk T V M E)
        (li ri : StepIterM T V M E) (e : E),
      lhs.stepIterRes = .ok li → rhs.stepIterRes = .ok ri →
      li.stepCount = ri.stepCount → c.controller.builderErr = none →
      c.controller.addColsErr = some e →
      c.Process hf lhs rhs = .error (.ext e)) ∧
    (∀ (c : UnlessNode L N E) (lhs rhs : Blk T V M E)
        (li ri : StepIterM T V M E) (e : E) (stepVals : List (List V))
        (rest : List (Except E (List V))),
      lhs.stepIterRes = .ok li → rhs.stepIterRes = .ok ri →
      li.stepCount = ri.stepCount → c.controller.builderErr = none →
      c.controller.addColsErr = none →
      li.steps = stepVals.map Except.ok ++ .error e :: rest →
      c.Process hf lhs rhs = .error (.ext e)) := by
  refine ⟨?_, ?_, ?_, ?_, ?_⟩
  · intro c lhs rhs e hl
    unfold UnlessNode.Process
    simp [hl]
  · intro c lhs rhs li e hl hr
    unfold UnlessNode.Process
    simp [hl, hr]
  · intro c lhs rhs li ri e hl hr hcount hbe
    unfold UnlessNode.Process
    simp only [hl, hr]
    rw [if_neg (by simp [hcount])]
    simp [ControllerM.BlockBuilder, hbe]
  · intro c lhs rhs li ri e hl hr hcount hbe hae
    unfold UnlessNode.Process
    simp only [hl, hr]
    rw [if_neg (by simp [hcount])]
    simp [ControllerM.BlockBuilder, hbe, BuilderM.AddCols, hae]
  · intro c lhs rhs li ri e stepVals rest hl hr hcount hbe hae hsteps
    unfold UnlessNode.Process
    simp only [hl, hr]
    rw [if_neg (by simp [hcount])]
    simp [ControllerM.BlockBuilder, hbe, BuilderM.AddCols, hae, hsteps,
      addValuesAtIndeces_error]

theorem unless_error_propagation_all_witness :
    node0.Process hf0 blkErr rblk = .error (.ext 42) ∧
    node0.Process hf0 lblk blkErr = .error (.ext 42) ∧
    nodeBuilderErr.Process hf0 lblk rblk = .error (.ext 7) ∧
    nodeAddColsErr.Process hf0 lblk rblk = .error (.ext 8) ∧
    node0.Process hf0 lblkStepErr rblk = .error (.ext 9) := by
  refine ⟨?_, ?_, ?_, ?_, ?_⟩
  · exact (unless_error_propagation_all hf0).1 node0 blkErr rblk 42 rfl
  · exact (unless_error_propagation_all hf0).2.1 node0 lblk blkErr _ 42
      rfl rfl
  · exact (unless_error_propagation_all hf0).2.2.1 nodeBuilderErr lblk rblk
      _ _ 7 rfl rfl rfl rfl
  · exact (unless_error_propagation_all hf0).2.2.2.1 nodeAddColsErr lblk rblk
      _ _ 8 rfl rfl rfl rfl rfl
  · exact (unless_error_propagation_all hf0).2.2.2.2 node0 lblkStepErr rblk
      _ _ 9 [[1]] [] rfl rfl rfl rfl rfl rfl

/-- C9: every index produced by `exclusion` is non-negative and strictly
below the left series-metadata list's length, so indexing any values vector
of that length (and the left metadata list itself) is in bounds. -/
theorem unless_index_safety {L N E T : Type} [Inhabited T] (hf : HashFunc L T)
    (c : UnlessNode L N E) (lhs rhs : List (SeriesMeta T)) :
    ∀ v ∈ c.exclusion hf lhs rhs, 0 ≤ v ∧ v.toNat < lhs.length ∧
      ∀ (V : Type) (values : List V), values.length = lhs.length →
        v.toNat < values.length := by
  intro v hv
  obtain ⟨h0, hlen⟩ := exclusion_mem_bounds hf c lhs rhs v hv
  exact ⟨h0, hlen, fun V values hV => hV ▸ hlen⟩

theorem unless_index_safety_witness :
    (0 : Int) ≤ 2 ∧ (2 : Int).toNat < [Aex, Bex, Cex].length ∧
      ∀ (V : Type) (values : List V), values.length = [Aex, Bex, Cex].length →
        (2 : Int).toNat < values.length :=
  unless_index_safety hf0 node0 [Aex, Bex, Cex] [] 2 (by decide)

/-- C10: the output of `Process` depends on the right-hand block only
through its step count and series metadata: two right blocks agreeing on
those (with arbitrary step values and block metadata) yield identical
results on the same left block. -/
theorem unless_right_values_irrelevant {L N E T V M : Type} [Inhabited T]
    [Inhabited V] (hf : HashFunc L T) (c : UnlessNode L N E)
    (lhs rhs1 rhs2 : Blk T V M E) (r1 r2 : StepIterM T V M E)
    (h1 : rhs1.stepIterRes = .ok r1) (h2 : rhs2.stepIterRes = .ok r2)
    (hsc : r1.stepCount = r2.stepCount) (hsm : r1.seriesMeta = r2.seriesMeta) :
    c.Process hf lhs rhs1 = c.Process hf lhs rhs2 := by
  unfold UnlessNode.Process
  simp only [h1, h2, hsc, hsm]

theorem unless_right_values_irrelevant_witness :
    node0.Process hf0 lblk rblkVals1 = node0.Process hf0 lblk rblkVals2 :=
  unless_right_values_irrelevant hf0 node0 lblk rblkVals1 rblkVals2 _ _
    rfl rfl rfl rfl

end M3Unless
